import Mathlib

/-!
Shallow embedding of the scoring, ranking and position-sizing core of the
AlgoTradiing repository (equalWeight.py, momentumStrategy.py,
valueStrategy.py), together with theorems settling the frozen claims.

Modelling conventions:
* floats are modelled by the rationals; a missing value (NaN in the pandas
  tables) is modelled by none in Option.
* scipy.stats.percentileofscore with its default kind (rank) is embedded by
  the function percentileofscore below, following the scipy source:
  left = count(a < score), right = count(a <= score),
  pct = (left + right + plus1) * 50 / n with plus1 = 1 when left < right.
* a NaN value propagates: a percentile of a missing score is missing, and
  the mean of a list containing a missing entry is missing.
-/

/-- scipy.stats.percentileofscore with the default rank method, as called in
momentumStrategy.py line 237 and valueStrategy.py line 363. -/
def percentileofscore (a : List ℚ) (score : ℚ) : ℚ :=
  ((a.countP (fun x => decide (x < score)) : ℚ)
    + (a.countP (fun x => decide (x ≤ score)) : ℚ)
    + (if a.countP (fun x => decide (x < score)) < a.countP (fun x => decide (x ≤ score))
        then (1 : ℚ) else 0))
    * 50 / (a.length : ℚ)

/-- momentumStrategy.py line 237: the column is first filtered of NaN entries
and the percentile of the record's own value is taken over the filtered
column, then divided by 100.  A missing score propagates to a missing
percentile, and an empty filtered column yields a missing percentile. -/
def momPercentile (col : List (Option ℚ)) (v : Option ℚ) : Option ℚ :=
  match v with
  | none => none
  | some x =>
      if (col.filterMap id).length = 0 then none
      else some (percentileofscore (col.filterMap id) x / 100)

theorem countP_le_split (v : ℚ) (l : List ℚ) :
    l.countP (fun x => decide (x ≤ v))
      = l.countP (fun x => decide (x < v)) + l.countP (fun x => decide (x = v)) := by
  induction l with
  | nil => rfl
  | cons x xs ih =>
    simp only [List.countP_cons, ih, decide_eq_true_eq]
    rcases lt_trichotomy x v with h | h | h
    · simp [le_of_lt h, h, ne_of_lt h]
      omega
    · subst h
      simp
      omega
    · simp [not_le.mpr h, not_lt.mpr (le_of_lt h), (ne_of_lt h).symm]

theorem countP_eq_pos_of_mem {v : ℚ} {l : List ℚ} (h : v ∈ l) :
    0 < l.countP (fun x => decide (x = v)) :=
  List.countP_pos_iff.mpr ⟨v, h, by simp⟩

theorem percentileofscore_mem (a : List ℚ) (v : ℚ) (hv : v ∈ a) :
    percentileofscore a v / 100
      = ((a.countP (fun x => decide (x < v)) : ℚ)
          + (a.countP (fun x => decide (x ≤ v)) : ℚ) + 1)
        / (2 * (a.length : ℚ)) := by
  have hn : a.length ≠ 0 := by
    intro h
    rw [List.length_eq_zero.mp h] at hv
    simp at hv
  have hsplit := countP_le_split v a
  have hpos := countP_eq_pos_of_mem hv
  have hlt : a.countP (fun x => decide (x < v)) < a.countP (fun x => decide (x ≤ v)) := by
    omega
  have hne : (a.length : ℚ) ≠ 0 := Nat.cast_ne_zero.mpr hn
  unfold percentileofscore
  rw [if_pos hlt]
  field_simp
  ring

/-- C1 (amended): in the code the percentile of a record with non-missing
value v on metric column col is not count(≤ v)/count, but the scipy rank
formula (count(< v) + count(≤ v) + 1) / (2 * count), taken over the
non-missing values of the column.  Records with tied values still receive
the same percentile (the percentile is a function of the value alone), a
record holding the unique maximum receives percentile 1, and a record
holding the unique minimum receives percentile 1/count. -/
theorem momPercentile_rank_spec (col : List (Option ℚ)) (v : ℚ)
    (hv : v ∈ col.filterMap id) :
    momPercentile col (some v)
      = some ((((col.filterMap id).countP (fun x => decide (x < v)) : ℚ)
          + ((col.filterMap id).countP (fun x => decide (x ≤ v)) : ℚ) + 1)
          / (2 * ((col.filterMap id).length : ℚ)))
    ∧ ((∀ w ∈ col.filterMap id, w ≤ v) →
        (col.filterMap id).countP (fun x => decide (x = v)) = 1 →
        momPercentile col (some v) = some 1)
    ∧ ((∀ w ∈ col.filterMap id, v ≤ w) →
        (col.filterMap id).countP (fun x => decide (x = v)) = 1 →
        momPercentile col (some v) = some (1 / ((col.filterMap id).length : ℚ))) := by
  have hn : (col.filterMap id).length ≠ 0 := by
    intro h
    rw [List.length_eq_zero.mp h] at hv
    simp at hv
  have hne : ((col.filterMap id).length : ℚ) ≠ 0 := Nat.cast_ne_zero.mpr hn
  have hform : momPercentile col (some v)
      = some (percentileofscore (col.filterMap id) v / 100) := by
    simp only [momPercentile]
    exact if_neg hn
  have hsplit := countP_le_split v (col.filterMap id)
  refine ⟨by rw [hform, percentileofscore_mem _ _ hv], ?_, ?_⟩
  · intro hmax hcount
    have hle : (col.filterMap id).countP (fun x => decide (x ≤ v))
        = (col.filterMap id).length := by
      apply List.countP_eq_length.mpr
      intro w hw
      simpa using hmax w hw
    have hltc : (col.filterMap id).countP (fun x => decide (x < v))
        = (col.filterMap id).length - 1 := by omega
    have h1 : 1 ≤ (col.filterMap id).length := Nat.one_le_iff_ne_zero.mpr hn
    rw [hform, percentileofscore_mem _ _ hv, hltc, hle]
    congr 1
    push_cast [h1]
    field_simp
    ring
  · intro hmin hcount
    have hltc : (col.filterMap id).countP (fun x => decide (x < v)) = 0 := by
      apply List.countP_eq_zero.mpr
      intro w hw
      simpa using not_lt.mpr (hmin w hw)
    have hle : (col.filterMap id).countP (fun x => decide (x ≤ v)) = 1 := by omega
    rw [hform, percentileofscore_mem _ _ hv, hltc, hle]
    congr 1
    push_cast
    rw [div_eq_div_iff (mul_ne_zero two_ne_zero hne) hne]
    ring

/-- Witness for C1 at the column with values 10, 20, 30 and the middle
record: one value strictly below, two values at or below, so the percentile
is (1 + 2 + 1) / 6 = 2/3. -/
theorem momPercentile_rank_spec_witness :
    momPercentile [some 10, some 20, some 30] (some 20) = some (2 / 3) := by
  have h := (momPercentile_rank_spec [some 10, some 20, some 30] 20 (by decide)).1
  rw [h]
  norm_num [List.filterMap_cons, List.countP_cons]

/-- C1 counterexample: the claim says the percentile equals
count(≤ value)/count, and that every record at the maximum receives 1.0.
In the column with values 10, 10, 30 the code assigns the tied value 10 the
percentile (0 + 2 + 1) * 50 / 3 / 100 = 1/2, not the claimed 2/3; and in the
column with values 10, 30, 30 the tied maximum 30 receives 5/6, not 1. -/
theorem momPercentile_counterexample :
    momPercentile [some 10, some 10, some 30] (some 10) = some (1 / 2)
    ∧ momPercentile [some 10, some 10, some 30] (some 10) ≠ some (2 / 3)
    ∧ momPercentile [some 10, some 30, some 30] (some 30) = some (5 / 6)
    ∧ momPercentile [some 10, some 30, some 30] (some 30) ≠ some 1 := by
  refine ⟨?_, ?_, ?_, ?_⟩ <;>
    · simp only [momPercentile]
      norm_num [percentileofscore, List.filterMap_cons, List.countP_cons]

/-- pandas Series.mean of a metric column: the arithmetic mean of its
non-missing entries, itself missing (NaN) when every entry is missing;
used by the imputation loop in valueStrategy.py line 335. -/
def colMean (col : List (Option ℚ)) : Option ℚ :=
  if (col.filterMap id).length = 0 then none
  else some ((col.filterMap id).sum / ((col.filterMap id).length : ℚ))

/-- pandas Series.fillna with the column mean, valueStrategy.py lines
334-335: every missing entry is replaced by the mean of the non-missing
entries and present entries are kept; filling with a missing mean (the
all-missing column) leaves the column unchanged. -/
def fillna (col : List (Option ℚ)) : List (Option ℚ) :=
  match colMean col with
  | none => col
  | some m => col.map (fun x => some (x.getD m))

/-- the imputation loop of valueStrategy.py line 334: each metric column is
imputed independently of every other column. -/
def imputeTable (cols : List (List (Option ℚ))) : List (List (Option ℚ)) :=
  cols.map fillna

/-- valueStrategy.py line 363: the percentile of a record on a metric is
percentileofscore over the full imputed column, divided by 100.  Under
scipy nan propagation a missing score, or a missing entry anywhere in the
column, yields a missing (NaN) percentile. -/
def rvPercentile (col : List (Option ℚ)) (v : Option ℚ) : Option ℚ :=
  match v with
  | none => none
  | some x =>
      if col.any (fun y => y.isNone) then none
      else some (percentileofscore (col.filterMap id) x / 100)

/-- statistics.mean over a row's list of percentile entries, NaN
propagating: momentumStrategy.py line 259 and valueStrategy.py line 383. -/
def meanOpt (xs : List (Option ℚ)) : Option ℚ :=
  if xs.any (fun x => x.isNone) then none
  else some ((xs.filterMap id).sum / ((xs.filterMap id).length : ℚ))

/-- the percentile the value strategy assigns to the record at index i on
one metric column: the column is first mean-imputed and the record's own
post-imputation value is scored against the imputed column. -/
def rvPercentileAt (col : List (Option ℚ)) (i : ℕ) : Option ℚ :=
  rvPercentile (fillna col) ((fillna col).getD i none)

/-- the composite RV Score of the record at index i over a table of metric
columns: the mean of its per-metric percentiles, valueStrategy.py
lines 379-383. -/
def rvScoreAt (cols : List (List (Option ℚ))) (i : ℕ) : Option ℚ :=
  meanOpt (cols.map (fun col => rvPercentileAt col i))

theorem getD_none_of_all_none :
    ∀ (l : List (Option ℚ)) (i : ℕ), (∀ x ∈ l, x = none) → l.getD i none = none
  | [], i, _ => by simp
  | x :: xs, 0, h => by simpa using h x (by simp)
  | x :: xs, i + 1, h => by
      simpa [List.getD_cons_succ] using
        getD_none_of_all_none xs i (fun y hy => h y (by simp [hy]))

/-- C8 (amended): when a metric column has zero non-missing values the code
raises nothing at all: its mean is undefined so fillna leaves the column
unchanged, every record receives a missing (NaN) percentile on that metric,
and every record whose table contains that column receives a missing (NaN)
composite RV Score; no InsufficientDataError exists in the code. -/
theorem allMissing_column_nan (col : List (Option ℚ))
    (h : ∀ x ∈ col, x = none) :
    fillna col = col
    ∧ (∀ i, rvPercentileAt col i = none)
    ∧ (∀ (cols : List (List (Option ℚ))), col ∈ cols →
        ∀ i, rvScoreAt cols i = none) := by
  have hfm : col.filterMap id = [] := by
    rw [List.filterMap_eq_nil_iff]
    intro a ha
    simp [h a ha]
  have hcm : colMean col = none := by
    simp [colMean, hfm]
  have hfill : fillna col = col := by
    simp [fillna, hcm]
  have hperc : ∀ i, rvPercentileAt col i = none := by
    intro i
    unfold rvPercentileAt
    rw [hfill, getD_none_of_all_none col i h]
    rfl
  refine ⟨hfill, hperc, ?_⟩
  intro cols hmem i
  have hany : (cols.map (fun c => rvPercentileAt c i)).any (fun x => x.isNone) = true := by
    rw [List.any_eq_true]
    exact ⟨rvPercentileAt col i, List.mem_map_of_mem _ hmem, by rw [hperc i]; rfl⟩
  simp [rvScoreAt, meanOpt, hany]

/-- Witness for C8 (amended) on a concrete all-missing two-record column. -/
theorem allMissing_column_nan_witness :
    fillna [none, none] = [none, none]
    ∧ rvScoreAt [[none, none], [some 1, some 2]] 0 = none := by
  have h := allMissing_column_nan [none, none] (by decide)
  exact ⟨h.1, h.2.2 [[none, none], [some 1, some 2]] (by simp) 0⟩

/-- C8 counterexample: on the concrete universe of two records whose metric
column is entirely missing (with a second, fully present metric), the code
does not raise InsufficientDataError; the all-missing column survives
imputation unchanged and the composite score of record 0 is NaN (missing),
exactly the silently-NaN outcome the claim rules out. -/
theorem allMissing_column_counterexample :
    fillna [none, none] = [none, none]
    ∧ rvScoreAt [[none, none], [some 1, some 2]] 0 = none := by
  constructor
  · norm_num [fillna, colMean, List.filterMap_cons]
  · norm_num [rvScoreAt, rvPercentileAt, rvPercentile, fillna, colMean, meanOpt,
      List.filterMap_cons, List.countP_cons, percentileofscore]

/-- one row of the high-quality-momentum table of momentumStrategy.py
lines 184-214: ticker, price, and the four period price returns (each
possibly missing). -/
structure HqmRow where
  ticker : String
  price : ℚ
  r1y : Option ℚ
  r6m : Option ℚ
  r3m : Option ℚ
  r1m : Option ℚ

/-- the four momentum percentiles of a row, computed over the four period
columns of the universe as in momentumStrategy.py lines 232-238. -/
def hqmPercentiles (u : List HqmRow) (r : HqmRow) : List (Option ℚ) :=
  [momPercentile (u.map (fun s => s.r1y)) r.r1y,
   momPercentile (u.map (fun s => s.r6m)) r.r6m,
   momPercentile (u.map (fun s => s.r3m)) r.r3m,
   momPercentile (u.map (fun s => s.r1m)) r.r1m]

/-- the HQM Score of a row: statistics.mean of its four momentum
percentiles, momentumStrategy.py lines 255-259. -/
def hqmScoreOf (u : List HqmRow) (r : HqmRow) : Option ℚ :=
  meanOpt (hqmPercentiles u r)

/-- C3: the composite scores are unweighted arithmetic means of the
per-metric percentiles.  When a momentum row's four percentiles are present
its HQM Score is their sum divided by 4, and when a value record's five
metric percentiles are present its RV Score is their sum divided by 5;
every metric contributes with equal weight. -/
theorem compositeScore_is_mean (u : List HqmRow) (r : HqmRow) (a b c d : ℚ)
    (h : hqmPercentiles u r = [some a, some b, some c, some d]) :
    hqmScoreOf u r = some ((a + b + c + d) / 4)
    ∧ (∀ (cols : List (List (Option ℚ))) (i : ℕ) (p1 p2 p3 p4 p5 : ℚ),
        cols.map (fun col => rvPercentileAt col i)
          = [some p1, some p2, some p3, some p4, some p5] →
        rvScoreAt cols i = some ((p1 + p2 + p3 + p4 + p5) / 5)) := by
  constructor
  · unfold hqmScoreOf
    rw [h]
    simp only [meanOpt, List.any_cons, List.any_nil, Option.isNone_some,
      Bool.false_or, Bool.or_false, if_neg, List.filterMap_cons, id]
    norm_num
    ring
  · intro cols i p1 p2 p3 p4 p5 hc
    unfold rvScoreAt
    rw [hc]
    simp only [meanOpt, List.any_cons, List.any_nil, Option.isNone_some,
      Bool.false_or, Bool.or_false, if_neg, List.filterMap_cons, id]
    norm_num
    ring

/-- Witness for C3: in the two-row momentum universe where every return of
row A is 1 and every return of row B is 2, each of row A's percentiles is
1/2, so its HQM Score is 1/2. -/
theorem compositeScore_is_mean_witness :
    hqmScoreOf [⟨"A", 10, some 1, some 1, some 1, some 1⟩,
                ⟨"B", 20, some 2, some 2, some 2, some 2⟩]
        ⟨"A", 10, some 1, some 1, some 1, some 1⟩ = some (1 / 2) := by
  have h := (compositeScore_is_mean
      [⟨"A", 10, some 1, some 1, some 1, some 1⟩,
       ⟨"B", 20, some 2, some 2, some 2, some 2⟩]
      ⟨"A", 10, some 1, some 1, some 1, some 1⟩
      (1 / 2) (1 / 2) (1 / 2) (1 / 2)
      (by norm_num [hqmPercentiles, momPercentile, percentileofscore,
        List.filterMap_cons, List.countP_cons])).1
  rw [h]
  norm_num

/-- C2 (amended): mean imputation before percentile computation is a fact
of the value strategy only.  There, for a column with at least one
non-missing entry, fillna replaces exactly the missing entries with the
arithmetic mean of the non-missing entries, keeps the present entries,
preserves length, and the table-level loop imputes each metric column
independently (the imputed column j is a function of column j alone); on
the spec example the column with entries 10, missing, 30 becomes
10, 20, 30.  The momentum strategy performs no imputation at all: a row
whose raw return is missing keeps that missing value and its percentile is
computed from the raw value, coming out missing (NaN) instead of the
percentile of an imputed mean. -/
theorem fillna_mean_spec (col : List (Option ℚ))
    (h : col.filterMap id ≠ []) :
    (fillna col).length = col.length
    ∧ (∀ i (hi : i < col.length) (hi2 : i < (fillna col).length),
        (fillna col).get ⟨i, hi2⟩
          = some ((col.get ⟨i, hi⟩).getD
              ((col.filterMap id).sum / ((col.filterMap id).length : ℚ))))
    ∧ (∀ (cols : List (List (Option ℚ))) (j : ℕ) (hj : j < cols.length)
        (hj2 : j < (imputeTable cols).length),
        (imputeTable cols).get ⟨j, hj2⟩ = fillna (cols.get ⟨j, hj⟩))
    ∧ fillna [some 10, none, some 30] = [some 10, some 20, some 30]
    ∧ (∀ (u : List HqmRow) (r : HqmRow), r.r1y = none →
        (hqmPercentiles u r).head? = some none) := by
  have hlen : (col.filterMap id).length ≠ 0 := fun hc => h (List.length_eq_zero.mp hc)
  have hcm : colMean col
      = some ((col.filterMap id).sum / ((col.filterMap id).length : ℚ)) := by
    simp only [colMean]
    exact if_neg hlen
  have hmap : fillna col
      = col.map (fun x =>
          some (x.getD ((col.filterMap id).sum / ((col.filterMap id).length : ℚ)))) := by
    simp only [fillna, hcm]
  refine ⟨by simp [hmap], ?_, ?_, ?_, ?_⟩
  · intro i hi hi2
    simp [hmap, List.get_eq_getElem, List.getElem_map]
  · intro cols j hj hj2
    simp [imputeTable, List.get_eq_getElem, List.getElem_map]
  · norm_num [fillna, colMean, List.filterMap_cons]
  · intro u r hr
    simp [hqmPercentiles, hr, momPercentile]

/-- Witness for C2 at the spec example, discharging the at-least-one
non-missing hypothesis on the column 10, missing, 30. -/
theorem fillna_mean_spec_witness :
    fillna [some 10, none, some 30] = [some 10, some 20, some 30] :=
  (fillna_mean_spec [some 10, none, some 30] (by decide)).2.2.2.1

/-- C2 counterexample: the claim quantifies over every Universe of the
program, but the momentum strategy never imputes.  In the momentum universe
whose one-year column is 10, missing, 30, the row with the missing return
is scored on its raw value and receives a missing (NaN) one-year
percentile, whereas imputation before percentile computation, as the claim
requires, would replace it by the mean 20 and yield the non-missing
percentile 2/3 of the imputed column. -/
theorem momentum_no_imputation_counterexample :
    (hqmPercentiles
        [⟨"A", 1, some 10, some 1, some 1, some 1⟩,
         ⟨"B", 1, none, some 1, some 1, some 1⟩,
         ⟨"C", 1, some 30, some 1, some 1, some 1⟩]
        ⟨"B", 1, none, some 1, some 1, some 1⟩).head? = some none
    ∧ momPercentile (fillna [some 10, none, some 30]) (some 20) = some (2 / 3)
    ∧ (hqmPercentiles
        [⟨"A", 1, some 10, some 1, some 1, some 1⟩,
         ⟨"B", 1, none, some 1, some 1, some 1⟩,
         ⟨"C", 1, some 30, some 1, some 1, some 1⟩]
        ⟨"B", 1, none, some 1, some 1, some 1⟩).head?
      ≠ some (momPercentile (fillna [some 10, none, some 30]) (some 20)) := by
  have h1 : (hqmPercentiles
      [⟨"A", 1, some 10, some 1, some 1, some 1⟩,
       ⟨"B", 1, none, some 1, some 1, some 1⟩,
       ⟨"C", 1, some 30, some 1, some 1, some 1⟩]
      ⟨"B", 1, none, some 1, some 1, some 1⟩).head? = some none := by
    simp [hqmPercentiles, momPercentile]
  have h2 : momPercentile (fillna [some 10, none, some 30]) (some 20)
      = some (2 / 3) := by
    have hf : fillna [some 10, none, some 30] = [some 10, some 20, some 30] := by
      norm_num [fillna, colMean, List.filterMap_cons]
    rw [hf]
    simp only [momPercentile]
    norm_num [percentileofscore, List.filterMap_cons, List.countP_cons]
  refine ⟨h1, h2, ?_⟩
  rw [h1, h2]
  simp

/-- the comparison on rows induced by a score column. -/
def keyLe {α : Type} (key : α → ℚ) (a b : α) : Prop := key a ≤ key b

instance keyLeDec {α : Type} (key : α → ℚ) : DecidableRel (keyLe key) :=
  fun a b => inferInstanceAs (Decidable (key a ≤ key b))

instance keyLeTotal {α : Type} (key : α → ℚ) : IsTotal α (keyLe key) :=
  ⟨fun a b => le_total (key a) (key b)⟩

instance keyLeTrans {α : Type} (key : α → ℚ) : IsTrans α (keyLe key) :=
  ⟨fun _ _ _ h1 h2 => le_trans h1 h2⟩

/-- pandas DataFrame.sort_values on one column with ascending False, as in
momentumStrategy.py line 270 and valueStrategy.py line 394.  pandas
(core/sorting.py, nargsort) reverses both the values and their index array,
computes an ascending argsort of the reversed values, and reverses the
resulting indexer again, so the descending sort is the reversal of an
ascending sort of the reversed input; with a stable underlying argsort the
two reversals cancel on ties and records with equal keys stay in their
original order.  The ascending argsort is embedded by a stable insertion
sort, exact for numpy's stable kinds and for its small-array
insertion-sort regime. -/
def sortValuesDesc {α : Type} (key : α → ℚ) (l : List α) : List α :=
  (l.reverse.insertionSort (keyLe key)).reverse

/-- sorting on the score column and truncating to the top N rows with the
slice dataframe[:50], momentumStrategy.py lines 270-271 and
valueStrategy.py lines 394-395. -/
def selectTop {α : Type} (N : ℕ) (key : α → ℚ) (l : List α) : List α :=
  (sortValuesDesc key l).take N

/-- C4: for every configured N at least 1, the selection kept after sorting
and slicing has exactly min N (universe size) rows; a universe smaller than
N is returned whole, and the slice is total (no error is raised). -/
theorem selectTop_length {α : Type} (N : ℕ) (hN : 1 ≤ N) (key : α → ℚ)
    (l : List α) :
    (selectTop N key l).length = min N l.length := by
  unfold selectTop sortValuesDesc
  rw [List.length_take, List.length_reverse, List.length_insertionSort,
    List.length_reverse]

/-- Witness for C4 with N = 50 on a three-row universe: all three rows are
kept. -/
theorem selectTop_length_witness :
    (selectTop 50 (fun r : String × ℚ => r.2) [("A", 3), ("B", 2), ("C", 1)]).length
      = min 50 3 :=
  selectTop_length 50 (by norm_num) (fun r => r.2) [("A", 3), ("B", 2), ("C", 1)]

theorem orderedInsert_filter_key {α : Type} (key : α → ℚ) (c : ℚ) (x : α) :
    ∀ s : List α,
      (List.orderedInsert (keyLe key) x s).filter (fun a => decide (key a = c))
        = if key x = c
          then x :: s.filter (fun a => decide (key a = c))
          else s.filter (fun a => decide (key a = c))
  | [] => by
      by_cases hx : key x = c <;>
        simp [List.orderedInsert, List.filter, hx]
  | b :: t => by
      by_cases hrb : keyLe key x b
      · rw [List.orderedInsert, if_pos hrb]
        by_cases hx : key x = c <;> simp [List.filter_cons, hx]
      · have hb : key b < key x := not_le.mp hrb
        rw [List.orderedInsert, if_neg hrb]
        by_cases hx : key x = c
        · have hbc : ¬ key b = c := by
            rw [← hx]
            exact ne_of_lt hb
          simp [List.filter_cons, hbc, hx, orderedInsert_filter_key key c x t]
        · simp [List.filter_cons, hx, orderedInsert_filter_key key c x t]

theorem insertionSort_filter_key {α : Type} (key : α → ℚ) (c : ℚ) :
    ∀ m : List α,
      (m.insertionSort (keyLe key)).filter (fun a => decide (key a = c))
        = m.filter (fun a => decide (key a = c))
  | [] => rfl
  | x :: m => by
      rw [List.insertionSort,
        orderedInsert_filter_key key c x (m.insertionSort (keyLe key)),
        insertionSort_filter_key key c m]
      by_cases hx : key x = c <;> simp [List.filter_cons, hx]

/-- C5: the descending sort before truncation is stable in the input-order
sense.  The sorted universe is a permutation of the input, it is sorted
with scores descending, and for every score c the records tied at c appear
in the sorted universe in exactly their pre-sort input order (their
filtered subsequence is unchanged); consequently a universe entirely tied
at one score passes through sorting untouched and truncation keeps its
first N records, the boundary included. -/
theorem sortValuesDesc_stable {α : Type} (key : α → ℚ) (l : List α) :
    List.Perm (sortValuesDesc key l) l
    ∧ List.Pairwise (fun a b => key b ≤ key a) (sortValuesDesc key l)
    ∧ (∀ c : ℚ, (sortValuesDesc key l).filter (fun a => decide (key a = c))
        = l.filter (fun a => decide (key a = c)))
    ∧ (∀ c : ℚ, (∀ a ∈ l, key a = c) → ∀ N : ℕ,
        sortValuesDesc key l = l ∧ selectTop N key l = l.take N) := by
  refine ⟨?_, ?_, ?_, ?_⟩
  · exact (l.reverse.insertionSort (keyLe key)).reverse_perm.trans
      ((List.perm_insertionSort (keyLe key) l.reverse).trans l.reverse_perm)
  · unfold sortValuesDesc
    rw [List.pairwise_reverse]
    exact List.sorted_insertionSort (keyLe key) l.reverse
  · intro c
    unfold sortValuesDesc
    rw [List.filter_reverse, insertionSort_filter_key key c l.reverse,
      List.filter_reverse, List.reverse_reverse]
  · intro c h N
    have hsorted : List.Sorted (keyLe key) l.reverse := by
      apply List.pairwise_of_forall_mem_list
      intro a ha b hb
      unfold keyLe
      rw [h a (List.mem_reverse.mp ha), h b (List.mem_reverse.mp hb)]
    have hid : sortValuesDesc key l = l := by
      unfold sortValuesDesc
      rw [hsorted.insertionSort_eq, List.reverse_reverse]
    exact ⟨hid, by unfold selectTop; rw [hid]⟩

/-- Witness for C5 on two records A and B tied at score 1, in that input
order: the sort leaves them in input order and the size-1 truncation keeps
A, the record first in input order, tie at the boundary included. -/
theorem sortValuesDesc_stable_witness :
    sortValuesDesc (fun r : String × ℚ => r.2) [("A", 1), ("B", 1)]
        = ([("A", 1), ("B", 1)] : List (String × ℚ))
    ∧ selectTop 1 (fun r : String × ℚ => r.2) [("A", 1), ("B", 1)]
        = ([("A", 1), ("B", 1)] : List (String × ℚ)).take 1 :=
  (sortValuesDesc_stable (fun r => r.2) [("A", 1), ("B", 1)]).2.2.2 1
    (by decide) 1

/-- the error outcomes the specification names, together with the generic
ZeroDivisionError Python raises.  The scripts define none of the
specification's typed errors, so no computation below ever produces the
three typed constructors; they exist so the claims about them can be
stated. -/
inductive PyExc where
  | zeroDivisionError
  | zeroUniverseError
  | invalidPriceError
  | insufficientDataError
deriving DecidableEq

/-- equalWeight.py line 225, momentumStrategy.py line 287 and
valueStrategy.py line 406: the per-position dollar amount is the portfolio
value divided by the number of selected rows, computed with no emptiness
check; on an empty selection the division itself raises the generic
ZeroDivisionError. -/
def positionSizeOf (v : ℚ) (sel : List (String × ℚ)) : Except PyExc ℚ :=
  if sel.length = 0 then .error .zeroDivisionError
  else .ok (v / (sel.length : ℚ))

/-- C7 (amended): invoked on an empty selection the Position Sizer of the
scripts evaluates portfolio value divided by zero rows and raises the
generic ZeroDivisionError; no ZeroUniverseError is defined or raised
anywhere, so the generic arithmetic fault is exactly what reaches the
caller. -/
theorem positionSize_empty_zero_division (v : ℚ) :
    positionSizeOf v [] = .error .zeroDivisionError := rfl

/-- C7 counterexample: on the empty selection with portfolio value 100 the
result is the generic ZeroDivisionError, not the ZeroUniverseError the
claim requires. -/
theorem positionSize_empty_counterexample :
    positionSizeOf 100 [] = .error .zeroDivisionError
    ∧ positionSizeOf 100 [] ≠ .error .zeroUniverseError := by
  refine ⟨rfl, ?_⟩
  intro h
  injection h with h
  exact PyExc.noConfusion h

/-- the allocation loop of equalWeight.py lines 225-230: every selected row
gets the same target dollar amount, the portfolio value divided by the
selection size, and a whole-share count obtained with math.floor of the
target divided by the row's price. -/
def allocations (v : ℚ) (sel : List (String × ℚ)) : List (String × ℚ × ℤ) :=
  sel.map (fun r =>
    (r.1, v / (sel.length : ℚ), ⌊(v / (sel.length : ℚ)) / r.2⌋))

/-- C6: for a non-empty selection, positive portfolio value and positive
prices, every allocation's target dollar amount is the portfolio value
divided by the selection size (identical across rows and independent of the
scores), each share count is the floor of that target divided by the row's
price, and the targets sum to the portfolio value exactly. -/
theorem allocations_spec (v : ℚ) (sel : List (String × ℚ))
    (hsel : sel ≠ []) (hv : 0 < v) (hp : ∀ r ∈ sel, 0 < r.2) :
    (allocations v sel).length = sel.length
    ∧ (∀ i (hi : i < sel.length) (hi2 : i < (allocations v sel).length),
        (allocations v sel).get ⟨i, hi2⟩
          = ((sel.get ⟨i, hi⟩).1, v / (sel.length : ℚ),
              ⌊(v / (sel.length : ℚ)) / (sel.get ⟨i, hi⟩).2⌋))
    ∧ ((allocations v sel).map (fun a => a.2.1)).sum = v := by
  have hlen : (sel.length : ℚ) ≠ 0 :=
    Nat.cast_ne_zero.mpr (fun hc => hsel (List.length_eq_zero.mp hc))
  refine ⟨by simp [allocations], ?_, ?_⟩
  · intro i hi hi2
    simp [allocations, List.get_eq_getElem, List.getElem_map]
  · have hrep : ((allocations v sel).map fun a => a.2.1)
        = List.replicate sel.length (v / (sel.length : ℚ)) := by
      unfold allocations
      rw [List.map_map]
      exact List.map_const' sel (v / (sel.length : ℚ))
    rw [hrep, List.sum_replicate, nsmul_eq_mul, mul_comm,
      div_mul_cancel₀ _ hlen]

/-- Witness for C6 at the spec scenario: selection C at price 5 and A at
price 10 with portfolio value 300; the two targets of 150 sum to 300. -/
theorem allocations_spec_witness :
    ((allocations 300 [("C", 5), ("A", 10)]).map fun a => a.2.1).sum = 300 :=
  (allocations_spec 300 [("C", 5), ("A", 10)] (by decide) (by norm_num)
    (by decide)).2.2

/-- equalWeight.py lines 227-230 and valueStrategy.py lines 412-413:
shares = math.floor(position_size / price), computed with no validation of
the price whatsoever; a zero price faults in the division itself (the
generic arithmetic error), any non-zero price, negative included, yields a
share count; no InvalidPriceError is defined anywhere in the code. -/
def sharesOf (pos price : ℚ) : Except PyExc ℤ :=
  if price = 0 then .error .zeroDivisionError
  else .ok ⌊pos / price⌋

/-- C9 (amended): the code never raises InvalidPriceError.  For a positive
position size and a negative price the division proceeds and the floor
produces a strictly negative share count, contradicting both the claimed
typed error and the claimed non-negativity of shares. -/
theorem sharesOf_negative_price (pos price : ℚ) (hpos : 0 < pos)
    (hneg : price < 0) :
    sharesOf pos price = .ok ⌊pos / price⌋ ∧ ⌊pos / price⌋ < 0 := by
  constructor
  · unfold sharesOf
    rw [if_neg (ne_of_lt hneg)]
  · exact Int.floor_lt.mpr (by exact_mod_cast div_neg_of_pos_of_neg hpos hneg)

/-- Witness for C9 (amended) at position size 150 and price -10. -/
theorem sharesOf_negative_price_witness :
    sharesOf 150 (-10) = .ok ⌊(150 : ℚ) / (-10)⌋ ∧ ⌊(150 : ℚ) / (-10)⌋ < 0 :=
  sharesOf_negative_price 150 (-10) (by norm_num) (by norm_num)

/-- C9 counterexample: a selected record priced at -10 with a 150 target
produces the share count -15: no InvalidPriceError is raised and the share
count is negative, refuting both parts of the claim. -/
theorem sharesOf_counterexample :
    sharesOf 150 (-10) = .ok (-15)
    ∧ sharesOf 150 (-10) ≠ .error .invalidPriceError
    ∧ (-15 : ℤ) < 0 := by
  have hfloor : ⌊(150 : ℚ) / (-10)⌋ = -15 := by
    have h : (150 : ℚ) / (-10) = ((-15 : ℤ) : ℚ) := by norm_num
    rw [h, Int.floor_intCast]
  refine ⟨?_, ?_, by norm_num⟩
  · unfold sharesOf
    rw [if_neg (by norm_num), hfloor]
  · unfold sharesOf
    rw [if_neg (by norm_num)]
    intro h
    exact Except.noConfusion h

/-- the chunks generator shared by equalWeight.py lines 158-160,
momentumStrategy.py lines 73-76 and valueStrategy.py lines 68-71,
translated index for index: the slice lst[i : i + n] is yielded for each i
in range(0, len(lst), n), and range(0, len, n) has
(len + n - 1) / n = ceil(len / n) elements for positive n. -/
def chunks {α : Type} (lst : List α) (n : ℕ) : List (List α) :=
  (List.range' 0 ((lst.length + n - 1) / n) n).map (fun i => (lst.drop i).take n)

theorem chunks_nil {α : Type} (n : ℕ) : chunks ([] : List α) n = [] := by
  unfold chunks
  simp only [List.length_nil]
  have h : (0 + n - 1) / n = 0 := by
    rcases Nat.eq_zero_or_pos n with h | h
    · simp [h]
    · exact Nat.div_eq_of_lt (by omega)
  rw [h]
  rfl

theorem chunks_cons {α : Type} (n : ℕ) (hn : 0 < n) (l : List α) (hl : l ≠ []) :
    chunks l n = l.take n :: chunks (l.drop n) n := by
  have hlen : 1 ≤ l.length := List.length_pos.mpr hl
  have hk : (l.length + n - 1) / n = (l.length - n + n - 1) / n + 1 := by
    rcases le_or_lt l.length n with hc | hc
    · have e1 : l.length + n - 1 = (l.length - 1) + n := by omega
      have e2 : l.length - n = 0 := by omega
      rw [e1, Nat.add_div_right _ hn, e2]
      have e3 : (0 + n - 1) / n = 0 := Nat.div_eq_of_lt (by omega)
      have e4 : (l.length - 1) / n = 0 := Nat.div_eq_of_lt (by omega)
      rw [e3, e4]
    · have e1 : l.length + n - 1 = (l.length - 1) + n := by omega
      have e2 : l.length - n + n - 1 = l.length - 1 := by omega
      rw [e1, Nat.add_div_right _ hn, e2]
  unfold chunks
  rw [List.length_drop, hk, List.range'_succ, List.map_cons, List.drop_zero]
  congr 1
  have hshift := (List.map_add_range' n 0 ((l.length - n + n - 1) / n) n).symm
  rw [Nat.add_zero] at hshift
  rw [Nat.zero_add, hshift, List.map_map]
  apply List.map_congr_left
  intro i hi
  show (l.drop (n + i)).take n = ((l.drop n).drop i).take n
  rw [List.drop_drop]

theorem chunks_flatten {α : Type} (n : ℕ) (hn : 0 < n) :
    ∀ l : List α, (chunks l n).flatten = l
  | [] => by rw [chunks_nil]; rfl
  | x :: xs => by
      rw [chunks_cons n hn (x :: xs) (by simp), List.flatten_cons,
        chunks_flatten n hn ((x :: xs).drop n)]
      exact List.take_append_drop n (x :: xs)
  termination_by l => l.length
  decreasing_by
    simp only [List.length_drop, List.length_cons]
    omega

theorem chunks_sizes {α : Type} (n : ℕ) (hn : 0 < n) :
    ∀ l : List α, ∀ c ∈ (chunks l n).dropLast, c.length = n
  | [] => by rw [chunks_nil]; intro c hc; simp at hc
  | x :: xs => by
      intro c hc
      rw [chunks_cons n hn (x :: xs) (by simp)] at hc
      rcases eq_or_ne (chunks ((x :: xs).drop n) n) [] with h0 | h0
      · rw [h0] at hc
        simp at hc
      · rw [List.dropLast_cons_of_ne_nil h0] at hc
        rcases List.mem_cons.mp hc with rfl | hc2
        · have hd : (x :: xs).drop n ≠ [] := by
            intro hd
            rw [hd, chunks_nil] at h0
            exact h0 rfl
          have hlt : n < (x :: xs).length := by
            by_contra hle
            exact hd (List.drop_eq_nil_iff.mpr (by omega))
          rw [List.length_take]
          omega
        · exact chunks_sizes n hn ((x :: xs).drop n) c hc2
  termination_by l => l.length
  decreasing_by
    simp only [List.length_drop, List.length_cons]
    omega

/-- C10: for positive n the chunks generator yields ceil(len/n), that is
(len + n - 1) / n, sublists; every yielded sublist except possibly the last
has length exactly n; and their concatenation in order is the input list,
so no element is dropped, duplicated or reordered. -/
theorem chunks_spec {α : Type} (lst : List α) (n : ℕ) (hn : 0 < n) :
    (chunks lst n).length = (lst.length + n - 1) / n
    ∧ (∀ c ∈ (chunks lst n).dropLast, c.length = n)
    ∧ (chunks lst n).flatten = lst := by
  refine ⟨?_, chunks_sizes n hn lst, chunks_flatten n hn lst⟩
  unfold chunks
  rw [List.length_map, List.length_range']

/-- Witness for C10: splitting a five-element list into chunks of two
reassembles to the original list, with (5 + 2 - 1) / 2 = 3 chunks. -/
theorem chunks_spec_witness :
    (chunks [1, 2, 3, 4, 5] 2).length = (5 + 2 - 1) / 2
    ∧ (chunks ([1, 2, 3, 4, 5] : List ℕ) 2).flatten = [1, 2, 3, 4, 5] := by
  have h := chunks_spec [1, 2, 3, 4, 5] 2 (by norm_num)
  exact ⟨h.1, h.2.2⟩
